import Mathlib

/-!
Verification of the ilm-atlas frontend core against its specification:
citation rendering (`markdown-citations.tsx`), the SSE streaming client
(`api-client.ts`), the chat state machine (`use-chat.ts`), and the
spec-described Result Fuser ranking.
-/

namespace IlmAtlas

/-! ## Citation rendering (`markdown-citations.tsx`) -/

/-- `chunk_type` union from `types.ts`. -/
inductive ChunkType where
  | ayah
  | hadith
  | tafsir
  | paragraph
deriving DecidableEq, Repr

/-- `Citation` interface from `types.ts` (the `metadata` record is kept
abstract as an optional association list of string pairs). -/
structure Citation where
  text_arabic : Option String
  text_english : Option String
  source : String
  chunk_type : ChunkType
  metadata : Option (List (String × String))
  auto_translated : Option Bool
deriving DecidableEq, Repr

instance : Inhabited Citation :=
  ⟨⟨none, none, "", ChunkType.paragraph, none, none⟩⟩

/-- The `ReactNode`s produced by `renderTextWithCitations`: either a plain
text run, or a `CitationLink` element. A link records the digit string of
the bracketed reference it replaced (`match[1]`), the parsed number
(passed to `onClick`) and the citation it carries (`citations[num - 1]`). -/
inductive RNode where
  | str (s : List Char)
  | link (numText : List Char) (num : Nat) (citation : Citation)
deriving DecidableEq, Repr

/-- `parseInt(ds, 10)` on a non-empty all-digit string. -/
def digitsToNat (ds : List Char) : Nat :=
  ds.foldl (fun a c => 10 * a + (c.toNat - '0'.toNat)) 0

/-- Try to match the remainder of the regex `\[(\d+)\]` just after a `[`:
a non-empty maximal digit run followed by `]`. Returns the digit run and
the text after the closing bracket. -/
def matchRef (l : List Char) : Option (List Char × List Char) :=
  match l.takeWhile Char.isDigit, l.dropWhile Char.isDigit with
  | [], _ => none
  | d :: ds, ']' :: r2 => some (d :: ds, r2)
  | _ :: _, _ => none

theorem matchRef_eq (l ds r2 : List Char)
    (h : matchRef l = some (ds, r2)) :
    l = ds ++ ']' :: r2 ∧ ds ≠ [] := by
  unfold matchRef at h
  have hsplit := List.takeWhile_append_dropWhile (p := Char.isDigit) (l := l)
  split at h
  · exact absurd h (by simp)
  · next d ds' r2' htake hdrop =>
    simp only [Option.some.injEq, Prod.mk.injEq] at h
    obtain ⟨h1, h2⟩ := h
    constructor
    · rw [← hsplit, htake, hdrop, h1, h2]
    · rw [← h1]; simp
  · exact absurd h (by simp)

theorem matchRef_length (l ds r2 : List Char)
    (h : matchRef l = some (ds, r2)) : r2.length < l.length := by
  obtain ⟨hl, -⟩ := matchRef_eq l ds r2 h
  subst hl
  simp [List.length_append]
  omega

/-- Flush the pending literal run (`text.slice(lastIndex, match.index)` /
the final `text.slice(lastIndex)`): a single string node when non-empty,
nothing when empty. The accumulator holds the run reversed. -/
def flushAcc (acc : List Char) : List RNode :=
  if acc.isEmpty then [] else [RNode.str acc.reverse]

/-- The node pushed for one regex match of `\[(\d+)\]` (loop body of
`renderTextWithCitations`): in-range references become a `CitationLink`
carrying `citations[num - 1]`, out-of-range references are kept as the
literal matched text `match[0]`. -/
def refNode (cits : List Citation) (ds : List Char) : RNode :=
  let num := digitsToNat ds
  if 1 ≤ num ∧ num ≤ cits.length then
    RNode.link ds num (cits.getD (num - 1) default)
  else
    RNode.str ('[' :: ds ++ [']'])

/-- The scanning loop of `renderTextWithCitations`: repeatedly find the
leftmost match of `\[(\d+)\]`, push the text before it, push the link (or
the literal text for an out-of-range number), and continue after the
match; finally push the remaining text. `acc` is the pending literal run
since `lastIndex`, reversed. -/
def renderAux (cits : List Citation) : List Char → List Char → List RNode
  | [], acc => flushAcc acc
  | c :: rest, acc =>
    if c = '[' then
      match h : matchRef rest with
      | some (ds, r2) =>
        flushAcc acc ++ refNode cits ds :: renderAux cits r2 []
      | none => renderAux cits rest (c :: acc)
    else
      renderAux cits rest (c :: acc)
termination_by l _ => l.length
decreasing_by
  · exact Nat.lt_succ_of_lt (matchRef_length _ _ _ h)
  · exact Nat.lt_succ_self _
  · exact Nat.lt_succ_self _

/-- `renderTextWithCitations` from `markdown-citations.tsx` (lines 56-98),
on the text's character sequence. -/
def renderTextWithCitations (text : List Char) (citations : List Citation) :
    List RNode :=
  renderAux citations text []

/-- Lexical structure of the scan: a text is an alternation of literal
runs and bracketed numeric references `[ds]`. -/
inductive RefTok where
  | lit (s : List Char)
  | ref (ds : List Char)
deriving DecidableEq, Repr

/-- Tokenize a text into the leftmost non-overlapping matches of
`\[(\d+)\]` and the (non-empty) literal runs between them. -/
def refTokensAux : List Char → List Char → List RefTok
  | [], acc => if acc.isEmpty then [] else [RefTok.lit acc.reverse]
  | c :: rest, acc =>
    if c = '[' then
      match h : matchRef rest with
      | some (ds, r2) =>
        (if acc.isEmpty then [] else [RefTok.lit acc.reverse]) ++
          RefTok.ref ds :: refTokensAux r2 []
      | none => refTokensAux rest (c :: acc)
    else
      refTokensAux rest (c :: acc)
termination_by l _ => l.length
decreasing_by
  · exact Nat.lt_succ_of_lt (matchRef_length _ _ _ h)
  · exact Nat.lt_succ_self _
  · exact Nat.lt_succ_self _

def refTokens (text : List Char) : List RefTok :=
  refTokensAux text []

/-- Interpretation of one token as the node the renderer produces for it. -/
def tokNode (cits : List Citation) : RefTok → RNode
  | RefTok.lit s => RNode.str s
  | RefTok.ref ds => refNode cits ds

/-- The source text a token stands for. -/
def tokText : RefTok → List Char
  | RefTok.lit s => s
  | RefTok.ref ds => '[' :: ds ++ [']']

/-- The source text an output node stands for: string nodes verbatim, link
nodes the bracketed reference they replaced. -/
def nodeText : RNode → List Char
  | RNode.str s => s
  | RNode.link ds _ _ => '[' :: ds ++ [']']

theorem renderAux_nil (cits : List Citation) (acc : List Char) :
    renderAux cits [] acc = flushAcc acc := by
  rw [renderAux]

theorem renderAux_bracket_some (cits : List Citation)
    (rest acc ds r2 : List Char) (h : matchRef rest = some (ds, r2)) :
    renderAux cits ('[' :: rest) acc =
      flushAcc acc ++ refNode cits ds :: renderAux cits r2 [] := by
  rw [renderAux]
  split
  · split
    · next ds' r2' heq =>
      rw [h] at heq
      simp only [Option.some.injEq, Prod.mk.injEq] at heq
      obtain ⟨rfl, rfl⟩ := heq
      rfl
    · next heq =>
      rw [h] at heq
      simp at heq
  · next hf => exact absurd rfl hf

theorem renderAux_bracket_none (cits : List Citation)
    (rest acc : List Char) (h : matchRef rest = none) :
    renderAux cits ('[' :: rest) acc = renderAux cits rest ('[' :: acc) := by
  rw [renderAux]
  split
  · split
    · next ds' r2' heq =>
      rw [h] at heq
      simp at heq
    · next => rfl
  · next hf => exact absurd rfl hf

theorem renderAux_other (cits : List Citation) (c : Char)
    (rest acc : List Char) (hc : ¬c = '[') :
    renderAux cits (c :: rest) acc = renderAux cits rest (c :: acc) := by
  rw [renderAux]
  simp only [if_neg hc]

theorem refTokensAux_nil (acc : List Char) :
    refTokensAux [] acc =
      if acc.isEmpty then [] else [RefTok.lit acc.reverse] := by
  rw [refTokensAux]

theorem refTokensAux_bracket_some
    (rest acc ds r2 : List Char) (h : matchRef rest = some (ds, r2)) :
    refTokensAux ('[' :: rest) acc =
      (if acc.isEmpty then [] else [RefTok.lit acc.reverse]) ++
        RefTok.ref ds :: refTokensAux r2 [] := by
  rw [refTokensAux]
  split
  · split
    · next ds' r2' heq =>
      rw [h] at heq
      simp only [Option.some.injEq, Prod.mk.injEq] at heq
      obtain ⟨rfl, rfl⟩ := heq
      rfl
    · next heq =>
      rw [h] at heq
      simp at heq
  · next hf => exact absurd rfl hf

theorem refTokensAux_bracket_none
    (rest acc : List Char) (h : matchRef rest = none) :
    refTokensAux ('[' :: rest) acc = refTokensAux rest ('[' :: acc) := by
  rw [refTokensAux]
  split
  · split
    · next ds' r2' heq =>
      rw [h] at heq
      simp at heq
    · next => rfl
  · next hf => exact absurd rfl hf

theorem refTokensAux_other (c : Char)
    (rest acc : List Char) (hc : ¬c = '[') :
    refTokensAux (c :: rest) acc = refTokensAux rest (c :: acc) := by
  rw [refTokensAux]
  simp only [if_neg hc]

theorem renderAux_eq_map (cits : List Citation) (l acc : List Char) :
    renderAux cits l acc = (refTokensAux l acc).map (tokNode cits) := by
  induction l, acc using refTokensAux.induct with
  | case1 acc h =>
    simp [renderAux_nil, refTokensAux_nil, flushAcc, tokNode, h]
  | case2 acc h =>
    simp [renderAux_nil, refTokensAux_nil, flushAcc, tokNode, h]
  | case3 rest acc ds r2 h ih =>
    rw [renderAux_bracket_some cits rest acc ds r2 h,
      refTokensAux_bracket_some rest acc ds r2 h]
    by_cases ha : acc.isEmpty <;> simp [flushAcc, ha, tokNode, ih]
  | case4 rest acc h ih =>
    rw [renderAux_bracket_none cits rest acc h,
      refTokensAux_bracket_none rest acc h]
    exact ih
  | case5 c rest acc hc ih =>
    rw [renderAux_other cits c rest acc hc, refTokensAux_other c rest acc hc]
    exact ih

theorem refTokensAux_text (l acc : List Char) :
    (((refTokensAux l acc).map tokText).flatten : List Char) =
      acc.reverse ++ l := by
  induction l, acc using refTokensAux.induct with
  | case1 acc h =>
    simp [refTokensAux_nil, h, List.isEmpty_iff.mp h]
  | case2 acc h =>
    simp [refTokensAux_nil, h, tokText]
  | case3 rest acc ds r2 h ih =>
    obtain ⟨hrest, -⟩ := matchRef_eq _ _ _ h
    rw [refTokensAux_bracket_some rest acc ds r2 h]
    by_cases ha : acc.isEmpty
    · simp [ha, List.isEmpty_iff.mp ha, tokText, ih, hrest]
    · simp [ha, tokText, ih, hrest]
  | case4 rest acc h ih =>
    rw [refTokensAux_bracket_none rest acc h]
    rw [ih]
    simp
  | case5 c rest acc hc ih =>
    rw [refTokensAux_other c rest acc hc]
    rw [ih]
    simp

/-- A concrete citation for witness statements. -/
def cit1 : Citation :=
  ⟨none, some "Verily with hardship comes ease", "Quran 94:5",
    ChunkType.ayah, none, none⟩

theorem nodeText_tokNode (cits : List Citation) (t : RefTok) :
    nodeText (tokNode cits t) = tokText t := by
  cases t with
  | lit s => rfl
  | ref ds =>
    simp only [tokNode, tokText, refNode]
    split <;> rfl

/-- C1: scanning an answer text for bracketed numeric references `[k]`
(`renderTextWithCitations`) maps each reference with `1 ≤ k ≤ N`
(`N` = number of citations) to a citation link carrying the `k`-th
citation's data (1-based), leaves every out-of-range reference as literal
text (no citation link, no failure), and passes all non-reference text
through unchanged: the output is exactly the reference/literal token
stream of the text under `tokNode`, and every link node in the output
carries an in-range number and the corresponding citation. -/
theorem renderTextWithCitations_correct
    (text : List Char) (cits : List Citation) :
    renderTextWithCitations text cits = (refTokens text).map (tokNode cits)
    ∧ (∀ ds k c, RNode.link ds k c ∈ renderTextWithCitations text cits →
        k = digitsToNat ds ∧ 1 ≤ k ∧ k ≤ cits.length ∧
          cits[k - 1]? = some c) := by
  refine ⟨renderAux_eq_map cits text [], ?_⟩
  intro ds k c hmem
  rw [renderTextWithCitations, renderAux_eq_map cits text [], List.mem_map]
    at hmem
  obtain ⟨tok, -, htok⟩ := hmem
  cases tok with
  | lit s => exact absurd htok (by simp [tokNode])
  | ref ds' =>
    simp only [tokNode, refNode] at htok
    split at htok
    · next hrange =>
      cases htok
      obtain ⟨hk1, hk2⟩ := hrange
      have hlt : digitsToNat ds - 1 < cits.length := by omega
      refine ⟨rfl, hk1, hk2, ?_⟩
      rw [List.getElem?_eq_getElem hlt]
      rw [List.getD_eq_getElem _ _ hlt]
    · exact absurd htok (by simp)

/-- Witness for C1: in `"A [1]"` with one citation, the link node found
in the output carries number 1 and the citation's data. -/
theorem renderTextWithCitations_correct_witness :
    1 = digitsToNat ['1'] ∧ 1 ≤ 1 ∧ 1 ≤ [cit1].length ∧
      [cit1][1 - 1]? = some cit1 :=
  (renderTextWithCitations_correct "A [1]".toList [cit1]).2
    ['1'] 1 cit1 (by
      have hr : renderTextWithCitations "A [1]".toList [cit1] =
          [RNode.str ['A', ' '], RNode.link ['1'] 1 cit1] := by
        show renderAux [cit1] ['A', ' ', '[', '1', ']'] [] = _
        rw [renderAux_other [cit1] 'A' [' ', '[', '1', ']'] [] (by decide)]
        rw [renderAux_other [cit1] ' ' ['[', '1', ']'] ['A'] (by decide)]
        rw [renderAux_bracket_some [cit1] ['1', ']'] [' ', 'A'] ['1'] [] rfl]
        rw [renderAux_nil]
        decide
      rw [hr]
      decide)

/-- C9: the rendering partitions its input without loss: concatenating
the returned nodes in order — string nodes verbatim, link nodes as the
bracketed reference text they replaced — reconstructs the input exactly. -/
theorem renderTextWithCitations_lossless
    (text : List Char) (cits : List Citation) :
    ((renderTextWithCitations text cits).map nodeText).flatten = text := by
  rw [renderTextWithCitations, renderAux_eq_map cits text [], List.map_map]
  have : (nodeText ∘ tokNode cits) = tokText := by
    funext t
    exact nodeText_tokNode cits t
  rw [this]
  simpa using refTokensAux_text text []

/-- JS `String.prototype.split("\n\n")`: split a character sequence at each
non-overlapping, leftmost occurrence of two consecutive newlines. -/
def splitOnNN : List Char → List (List Char)
  | [] => [[]]
  | [a] => [[a]]
  | a :: b :: rest =>
    if a = '\n' ∧ b = '\n' then
      [] :: splitOnNN rest
    else
      match splitOnNN (b :: rest) with
      | [] => [[a]]
      | p :: ps => (a :: p) :: ps

theorem splitOnNN_ne_nil (l : List Char) : splitOnNN l ≠ [] := by
  induction l using splitOnNN.induct with
  | case1 => simp [splitOnNN]
  | case2 a => simp [splitOnNN]
  | case3 a b rest h ih => simp [splitOnNN, h]
  | case4 a b rest h heq ih =>
    simp only [splitOnNN]
    split <;> simp_all
  | case5 a b rest h p ps heq ih =>
    simp only [splitOnNN]
    split <;> simp_all

theorem getLastD_append_ne {α : Type} (A B : List α) (d : α) (h : B ≠ []) :
    (A ++ B).getLastD d = B.getLastD d := by
  rw [List.getLastD_eq_getLast?, List.getLastD_eq_getLast?,
    List.getLast?_append_of_ne_nil A h]

/-- A list with a single `splitOnNN` part contains no separator and is its
own (only) part. -/
theorem splitOnNN_single (l p : List Char) (h : splitOnNN l = [p]) :
    p = l := by
  induction l using splitOnNN.induct generalizing p with
  | case1 =>
    simp [splitOnNN] at h
    exact h
  | case2 a =>
    simp [splitOnNN] at h
    exact h.symm
  | case3 a b rest hab ih =>
    rw [splitOnNN, if_pos hab] at h
    simp at h
    exact absurd h.2 (splitOnNN_ne_nil rest)
  | case4 a b rest hab heq ih =>
    exact absurd heq (splitOnNN_ne_nil _)
  | case5 a b rest hab q qs heq ih =>
    rw [splitOnNN, if_neg hab, heq] at h
    simp at h
    obtain ⟨h1, h2⟩ := h
    subst h2
    have hq : q = b :: rest := ih q (by rw [heq])
    rw [← h1, hq]

/-- The first part of a split starts with the first character of the
input (when the part is non-empty). -/
theorem splitOnNN_head (l q : List Char) (qs : List (List Char))
    (h : splitOnNN l = q :: qs) (hq : q ≠ []) : q.head? = l.head? := by
  induction l using splitOnNN.induct generalizing q qs with
  | case1 =>
    simp [splitOnNN] at h
    exact absurd h.1 hq
  | case2 a =>
    simp [splitOnNN] at h
    rw [← h.1]
  | case3 a b rest hab ih =>
    rw [splitOnNN, if_pos hab] at h
    simp at h
    exact absurd h.1 hq
  | case4 a b rest hab heq ih =>
    exact absurd heq (splitOnNN_ne_nil _)
  | case5 a b rest hab p ps heq ih =>
    rw [splitOnNN, if_neg hab, heq] at h
    simp at h
    rw [← h.1]
    rfl

/-- Every part produced by the split is separator-free: splitting it
again yields the part itself. -/
theorem splitOnNN_part (l p : List Char) (hp : p ∈ splitOnNN l) :
    splitOnNN p = [p] := by
  induction l using splitOnNN.induct generalizing p with
  | case1 =>
    simp [splitOnNN] at hp
    simp [hp, splitOnNN]
  | case2 a =>
    simp [splitOnNN] at hp
    simp [hp, splitOnNN]
  | case3 a b rest hab ih =>
    rw [splitOnNN, if_pos hab] at hp
    rcases List.mem_cons.mp hp with h0 | h0
    · simp [h0, splitOnNN]
    · exact ih p h0
  | case4 a b rest hab heq ih =>
    exact absurd heq (splitOnNN_ne_nil _)
  | case5 a b rest hab q qs heq ih =>
    rw [splitOnNN, if_neg hab, heq] at hp
    rcases List.mem_cons.mp hp with h0 | h0
    · subst h0
      have hqs : splitOnNN q = [q] := ih q (by rw [heq]; exact List.mem_cons_self _ _)
      cases hq : q with
      | nil => simp [splitOnNN]
      | cons c q' =>
        have hc : c = b := by
          have := splitOnNN_head (b :: rest) q qs heq (by rw [hq]; simp)
          rw [hq] at this
          simpa using this
        rw [splitOnNN]
        have hnsep : ¬(a = '\n' ∧ c = '\n') := by
          rw [hc]; exact hab
        rw [if_neg hnsep]
        rw [hq] at hqs
        rw [hqs]
    · exact ih p (by rw [heq]; exact List.mem_cons_of_mem _ h0)

/-- Compositionality of the SSE frame splitter under appending input:
the complete parts of `s` stay complete, and the incomplete trailing part
is re-split together with the appended text. This is the reason the
buffering loop in `streamChatMessage` is re-chunking invariant. -/
theorem splitOnNN_append (s t : List Char) :
    splitOnNN (s ++ t) =
      (splitOnNN s).dropLast ++
        splitOnNN ((splitOnNN s).getLastD [] ++ t) := by
  induction s using splitOnNN.induct with
  | case1 =>
    simp [splitOnNN]
  | case2 a =>
    simp [splitOnNN]
  | case3 a b rest hab ih =>
    obtain ⟨rfl, rfl⟩ := hab
    have h1 : splitOnNN ('\n' :: '\n' :: rest) = [] :: splitOnNN rest := by
      rw [splitOnNN, if_pos ⟨rfl, rfl⟩]
    have h2 : splitOnNN (('\n' :: '\n' :: rest) ++ t) =
        [] :: splitOnNN (rest ++ t) := by
      rw [List.cons_append, List.cons_append, splitOnNN, if_pos ⟨rfl, rfl⟩]
    rw [h1, h2, ih]
    rw [List.dropLast_cons_of_ne_nil (splitOnNN_ne_nil rest),
      List.getLastD_cons]
    simp
  | case4 a b rest hab heq ih =>
    exact absurd heq (splitOnNN_ne_nil _)
  | case5 a b rest hab q qs heq ih =>
    have h1 : splitOnNN (a :: b :: rest) = (a :: q) :: qs := by
      rw [splitOnNN, if_neg hab, heq]
    cases hqs : qs with
    | nil =>
      subst hqs
      have hq : q = b :: rest := splitOnNN_single _ _ heq
      rw [h1]
      simp only [List.dropLast_single, List.getLastD_cons, List.getLastD_nil,
        List.nil_append]
      rw [hq]
    | cons w ws =>
      subst hqs
      have hlast : (q :: w :: ws).getLastD ([] : List Char) =
          (w :: ws).getLastD [] := by
        simp only [List.getLastD_cons]
      have ih2 : splitOnNN (b :: (rest ++ t)) =
          q :: ((w :: ws).dropLast ++
            splitOnNN ((w :: ws).getLastD [] ++ t)) := by
        rw [show b :: (rest ++ t) = (b :: rest) ++ t from rfl, ih, heq, hlast]
        rfl
      have h2 : splitOnNN ((a :: b :: rest) ++ t) =
          (a :: q) :: ((w :: ws).dropLast ++
            splitOnNN ((w :: ws).getLastD [] ++ t)) := by
        show splitOnNN (a :: b :: (rest ++ t)) = _
        rw [splitOnNN, if_neg hab, ih2]
      rw [h1, h2]
      simp only [List.getLastD_cons]
      rfl

/-! ## SSE stream client (`api-client.ts`, `streamChatMessage`) -/

/-- The six callbacks of `StreamCallbacks` (`types.ts`), as invocations
carrying the payload handed to them. The payload type is abstract: the
client passes the parsed JSON value through unchecked casts. -/
inductive StreamCall (δ : Type) where
  | onUserMessage (d : δ)
  | onContentDelta (d : δ)
  | onCitations (d : δ)
  | onTitle (d : δ)
  | onDone (d : δ)
  | onError (d : δ)
deriving DecidableEq, Repr

/-- The `switch (eventType)` at the transport boundary of
`streamChatMessage` (lines 435-454): a closed string-tagged dispatch.
Unknown tags fall through the switch and invoke no callback. -/
def dispatchEvent {δ : Type} (tag : List Char) (d : δ) :
    Option (StreamCall δ) :=
  if tag = "user_message".toList then some (StreamCall.onUserMessage d)
  else if tag = "content_delta".toList then some (StreamCall.onContentDelta d)
  else if tag = "citations".toList then some (StreamCall.onCitations d)
  else if tag = "title".toList then some (StreamCall.onTitle d)
  else if tag = "done".toList then some (StreamCall.onDone d)
  else if tag = "error".toList then some (StreamCall.onError d)
  else none

/-- JS `String.prototype.trim()`: strip leading and trailing whitespace. -/
def jsTrim (l : List Char) : List Char :=
  ((l.dropWhile Char.isWhitespace).reverse.dropWhile Char.isWhitespace).reverse

/-- JS `String.prototype.startsWith(pat)` on character lists. -/
def leadsWith : List Char → List Char → Bool
  | [], _ => true
  | _ :: _, [] => false
  | p :: ps, c :: cs => if p = c then leadsWith ps cs else false

/-- JS `String.prototype.split(sep)` for a single-character separator
(used with `"\n"` on each SSE frame). -/
def splitOnChar (sep : Char) : List Char → List (List Char)
  | [] => [[]]
  | c :: rest =>
    if c = sep then [] :: splitOnChar sep rest
    else
      match splitOnChar sep rest with
      | [] => [[c]]
      | p :: ps => (c :: p) :: ps

/-- The per-frame line scan of `streamChatMessage` (lines 420-429): the
last `event: ` line (sliced at 7, trimmed) and the last `data: ` line
(sliced at 6, untrimmed) win. -/
def parseFrameLines (lines : List (List Char)) : List Char × List Char :=
  lines.foldl
    (fun st line =>
      if leadsWith "event: ".toList line then (jsTrim (line.drop 7), st.2)
      else if leadsWith "data: ".toList line then (st.1, line.drop 6)
      else st)
    ([], [])

/-- Process one complete SSE frame (`part`) as the loop body of
`streamChatMessage` does: skip blank frames, parse the `event:`/`data:`
lines, skip frames missing either, and dispatch on the tag. The `data`
payload is carried as its raw text. -/
def handlePart (part : List Char) : Option (StreamCall (List Char)) :=
  if (jsTrim part).isEmpty then none
  else
    let p := parseFrameLines (splitOnChar '\n' part)
    if p.1.isEmpty || p.2.isEmpty then none
    else dispatchEvent p.1 p.2

/-- One `reader.read()` iteration of `streamChatMessage` (lines 406-416):
append the chunk to the buffer, split on blank lines, keep the trailing
(possibly incomplete) part as the new buffer and emit the complete parts. -/
def feedChunk (st : List (List Char) × List Char) (chunk : List Char) :
    List (List Char) × List Char :=
  let parts := splitOnNN (st.2 ++ chunk)
  (st.1 ++ parts.dropLast, parts.getLastD [])

/-- Run the read loop over a whole sequence of chunks, starting from an
empty buffer: the complete frames emitted, in order, and the final
(discarded) buffer. -/
def runStream (chunks : List (List Char)) : List (List Char) × List Char :=
  chunks.foldl feedChunk ([], [])

/-- The callback invocations `streamChatMessage` performs for a given
sequence of received chunks, in order. -/
def streamCalls (chunks : List (List Char)) :
    List (StreamCall (List Char)) :=
  (runStream chunks).1.filterMap handlePart

theorem runStream_foldl (chunks : List (List Char))
    (acc : List (List Char)) (buf : List Char)
    (hbuf : splitOnNN buf = [buf]) :
    chunks.foldl feedChunk (acc, buf) =
      (acc ++ (splitOnNN (buf ++ chunks.flatten)).dropLast,
        (splitOnNN (buf ++ chunks.flatten)).getLastD []) := by
  induction chunks generalizing acc buf with
  | nil =>
    simp [hbuf]
  | cons c rest ih =>
    rw [List.foldl_cons]
    have hmem : (splitOnNN (buf ++ c)).getLastD [] ∈ splitOnNN (buf ++ c) := by
      cases hp : splitOnNN (buf ++ c) with
      | nil => exact absurd hp (splitOnNN_ne_nil _)
      | cons q qs =>
        rw [List.getLastD_eq_getLast?, List.getLast?_eq_getLast _ (by simp)]
        exact List.getLast_mem _
    have hbuf2 := splitOnNN_part (buf ++ c) _ hmem
    rw [show feedChunk (acc, buf) c =
        (acc ++ (splitOnNN (buf ++ c)).dropLast,
          (splitOnNN (buf ++ c)).getLastD []) from rfl]
    rw [ih _ _ hbuf2]
    have happ := splitOnNN_append (buf ++ c) rest.flatten
    have hne := splitOnNN_ne_nil ((splitOnNN (buf ++ c)).getLastD [] ++
      rest.flatten)
    rw [Prod.mk.injEq]
    constructor
    · show acc ++ (splitOnNN (buf ++ c)).dropLast ++
        (splitOnNN ((splitOnNN (buf ++ c)).getLastD [] ++
          rest.flatten)).dropLast =
        acc ++ (splitOnNN (buf ++ (c :: rest).flatten)).dropLast
      rw [List.flatten_cons, show buf ++ (c ++ rest.flatten) =
        (buf ++ c) ++ rest.flatten by simp, happ]
      rw [List.dropLast_append_of_ne_nil _ hne, List.append_assoc]
    · show (splitOnNN ((splitOnNN (buf ++ c)).getLastD [] ++
          rest.flatten)).getLastD [] =
        (splitOnNN (buf ++ (c :: rest).flatten)).getLastD []
      rw [List.flatten_cons, show buf ++ (c ++ rest.flatten) =
        (buf ++ c) ++ rest.flatten by simp, happ]
      rw [getLastD_append_ne _ _ _ hne]

/-- The frames the read loop dispatches depend only on the concatenation
of the received chunks: they are exactly the complete parts of the full
byte sequence. -/
theorem streamCalls_eq_flatten (chunks : List (List Char)) :
    streamCalls chunks =
      ((splitOnNN chunks.flatten).dropLast).filterMap handlePart := by
  rw [streamCalls, runStream, runStream_foldl chunks [] [] (by rfl)]
  simp

/-- C8: the SSE parsing in `streamChatMessage` is invariant under
re-chunking of the byte stream: any two ways of splitting the same bytes
into successive read chunks produce the identical sequence of callback
invocations, because frames split across chunk boundaries are buffered
until their terminating blank line arrives. Chunks are modelled as
character sequences: `TextDecoder` with `stream: true` buffers UTF-8
sequences split across reads, so byte-level re-chunking reduces to
character-level re-chunking. -/
theorem streamChatMessage_rechunk_invariant (c1 c2 : List (List Char))
    (h : c1.flatten = c2.flatten) : streamCalls c1 = streamCalls c2 := by
  rw [streamCalls_eq_flatten, streamCalls_eq_flatten, h]

/-- Witness for C8: one frame `event: done` delivered whole versus cut
into three chunks (one boundary inside the tag, one between the two
newlines of the frame terminator). -/
theorem streamChatMessage_rechunk_invariant_witness :
    (["event: done\ndata: x\n\n".toList] : List (List Char)).flatten =
      ["event: do".toList, "ne\ndata: x\n".toList, "\n".toList].flatten
    ∧ streamCalls ["event: done\ndata: x\n\n".toList] =
        streamCalls
          ["event: do".toList, "ne\ndata: x\n".toList, "\n".toList] :=
  ⟨by decide, streamChatMessage_rechunk_invariant _ _ (by decide)⟩

/-- The event tag that produces a given callback under `dispatchEvent`. -/
def callTag {δ : Type} : StreamCall δ → List Char
  | StreamCall.onUserMessage _ => "user_message".toList
  | StreamCall.onContentDelta _ => "content_delta".toList
  | StreamCall.onCitations _ => "citations".toList
  | StreamCall.onTitle _ => "title".toList
  | StreamCall.onDone _ => "done".toList
  | StreamCall.onError _ => "error".toList

theorem dispatchEvent_user_message {δ : Type} (d : δ) :
    dispatchEvent "user_message".toList d =
      some (StreamCall.onUserMessage d) := rfl

theorem dispatchEvent_content_delta {δ : Type} (d : δ) :
    dispatchEvent "content_delta".toList d =
      some (StreamCall.onContentDelta d) := rfl

theorem dispatchEvent_citations {δ : Type} (d : δ) :
    dispatchEvent "citations".toList d =
      some (StreamCall.onCitations d) := rfl

theorem dispatchEvent_title {δ : Type} (d : δ) :
    dispatchEvent "title".toList d = some (StreamCall.onTitle d) := rfl

theorem dispatchEvent_done {δ : Type} (d : δ) :
    dispatchEvent "done".toList d = some (StreamCall.onDone d) := rfl

theorem dispatchEvent_error {δ : Type} (d : δ) :
    dispatchEvent "error".toList d = some (StreamCall.onError d) := rfl

theorem dispatchEvent_some_tag {δ : Type} (tag : List Char) (d : δ)
    (x : StreamCall δ) (h : dispatchEvent tag d = some x) :
    tag = callTag x := by
  unfold dispatchEvent at h
  split_ifs at h with h1 h2 h3 h4 h5 h6 <;>
    simp only [Option.some.injEq] at h <;>
    (subst h; simpa [callTag])

/-- C6: stream event dispatch at the transport boundary is a closed
tagged-variant mapping: each of the six known tags invokes exactly its
one corresponding callback with the event's payload, and any other tag
invokes no callback at all. -/
theorem dispatchEvent_closed_tagged {δ : Type} (d : δ) :
    dispatchEvent "user_message".toList d =
        some (StreamCall.onUserMessage d)
    ∧ dispatchEvent "content_delta".toList d =
        some (StreamCall.onContentDelta d)
    ∧ dispatchEvent "citations".toList d = some (StreamCall.onCitations d)
    ∧ dispatchEvent "title".toList d = some (StreamCall.onTitle d)
    ∧ dispatchEvent "done".toList d = some (StreamCall.onDone d)
    ∧ dispatchEvent "error".toList d = some (StreamCall.onError d)
    ∧ ∀ tag : List Char,
        tag ∉ ["user_message".toList, "content_delta".toList,
          "citations".toList, "title".toList, "done".toList,
          "error".toList] →
        dispatchEvent tag d = none := by
  refine ⟨rfl, rfl, rfl, rfl, rfl, rfl, ?_⟩
  intro tag htag
  simp only [List.mem_cons, List.mem_singleton, not_or] at htag
  obtain ⟨n1, n2, n3, n4, n5, n6, -⟩ := htag
  unfold dispatchEvent
  rw [if_neg n1, if_neg n2, if_neg n3, if_neg n4, if_neg n5, if_neg n6]

/-- Witness for C6: the `done` tag dispatches `onDone`, and an unknown
tag dispatches nothing. -/
theorem dispatchEvent_closed_tagged_witness :
    dispatchEvent "done".toList (0 : Nat) = some (StreamCall.onDone 0)
    ∧ dispatchEvent ['p', 'i', 'n', 'g'] (0 : Nat) = none :=
  ⟨(dispatchEvent_closed_tagged (0 : Nat)).2.2.2.2.1,
    (dispatchEvent_closed_tagged (0 : Nat)).2.2.2.2.2.2
      ['p', 'i', 'n', 'g'] (by decide)⟩

/-- The sequence of callback invocations the dispatch switch performs on
a parsed event sequence (tag, payload), in arrival order: this is what
`streamChatMessage` delivers to the `useChat` callbacks. -/
def callbackTrace {δ : Type} (events : List (List Char × δ)) :
    List (StreamCall δ) :=
  events.filterMap fun e => dispatchEvent e.1 e.2

def isDeltaCall {δ : Type} : StreamCall δ → Bool
  | StreamCall.onContentDelta _ => true
  | _ => false

def isCitationsCall {δ : Type} : StreamCall δ → Bool
  | StreamCall.onCitations _ => true
  | _ => false

def isDoneCall {δ : Type} : StreamCall δ → Bool
  | StreamCall.onDone _ => true
  | _ => false

/-- A terminal callback: `onDone` or `onError`. -/
def isTerminalCall {δ : Type} : StreamCall δ → Bool
  | StreamCall.onDone _ => true
  | StreamCall.onError _ => true
  | _ => false

/-- The payload of a `onContentDelta` invocation. -/
def deltaPayload {δ : Type} : StreamCall δ → Option δ
  | StreamCall.onContentDelta d => some d
  | _ => none

theorem callTag_of_citations {δ : Type} (x : StreamCall δ)
    (h : isCitationsCall x = true) : callTag x = "citations".toList := by
  cases x <;> simp_all [isCitationsCall, callTag]

theorem callTag_of_done {δ : Type} (x : StreamCall δ)
    (h : isDoneCall x = true) : callTag x = "done".toList := by
  cases x <;> simp_all [isDoneCall, callTag]

theorem callTag_of_delta {δ : Type} (x : StreamCall δ)
    (h : isDeltaCall x = true) : callTag x = "content_delta".toList := by
  cases x <;> simp_all [isDeltaCall, callTag]

theorem callTag_of_terminal {δ : Type} (x : StreamCall δ)
    (h : isTerminalCall x = true) :
    callTag x = "done".toList ∨ callTag x = "error".toList := by
  cases x <;> simp_all [isTerminalCall, callTag]

/-- Delta payloads pass through the dispatch in stream order: the
`onContentDelta` payload subsequence of the callback trace equals the
payload subsequence of the `content_delta` events. -/
theorem callbackTrace_delta_order {δ : Type}
    (events : List (List Char × δ)) :
    (callbackTrace events).filterMap deltaPayload =
      events.filterMap
        (fun e => if e.1 = "content_delta".toList then some e.2
          else none) := by
  induction events with
  | nil => rfl
  | cons e rest ih =>
    obtain ⟨tag, d⟩ := e
    simp only [callbackTrace, List.filterMap_cons] at ih ⊢
    by_cases h2 : tag = "content_delta".toList
    · subst h2
      rw [dispatchEvent_content_delta]
      simpa [deltaPayload] using ih
    · rw [if_neg h2]
      cases hd : dispatchEvent tag d with
      | none => simpa using ih
      | some x =>
        have htag := dispatchEvent_some_tag tag d x hd
        have hx : deltaPayload x = none := by
          cases x <;> simp [deltaPayload]
          · simp only [callTag] at htag
            exact h2 htag
        simp only [List.filterMap_cons, hx]
        exact ih

/-- C2: for a well-formed stream — every `content_delta` before the
`citations` event, which precedes the terminal `done` — the callbacks
arrive in exactly that order: the trace decomposes as the calls for the
prefix, then `onCitations`, then citation-free/delta-free calls, then
`onDone`; no `onCitations`/`onDone` occurs earlier, and `onContentDelta`
payloads are delivered in stream order. -/
theorem streamChatMessage_callback_order {δ : Type}
    (pre mid : List (List Char × δ)) (c dn : δ)
    (hpre : ∀ e ∈ pre, e.1 ≠ "citations".toList ∧ e.1 ≠ "done".toList)
    (hmid : ∀ e ∈ mid, e.1 ≠ "content_delta".toList ∧
      e.1 ≠ "citations".toList ∧ e.1 ≠ "done".toList) :
    callbackTrace
        (pre ++ ("citations".toList, c) :: mid ++ [("done".toList, dn)]) =
      callbackTrace pre ++ StreamCall.onCitations c ::
        (callbackTrace mid ++ [StreamCall.onDone dn])
    ∧ (∀ x ∈ callbackTrace pre,
        isCitationsCall x = false ∧ isDoneCall x = false)
    ∧ (∀ x ∈ callbackTrace mid, isDeltaCall x = false ∧
        isCitationsCall x = false ∧ isDoneCall x = false)
    ∧ (callbackTrace
          (pre ++ ("citations".toList, c) :: mid ++
            [("done".toList, dn)])).filterMap deltaPayload =
        (pre ++ ("citations".toList, c) :: mid ++
            [("done".toList, dn)]).filterMap
          (fun e => if e.1 = "content_delta".toList then some e.2
            else none) := by
  have hmem : ∀ (l : List (List Char × δ)) (x : StreamCall δ),
      x ∈ callbackTrace l → ∃ e ∈ l, e.1 = callTag x := by
    intro l x hx
    obtain ⟨e, he, hd⟩ := List.mem_filterMap.mp hx
    exact ⟨e, he, dispatchEvent_some_tag e.1 e.2 x hd⟩
  refine ⟨?_, ?_, ?_, callbackTrace_delta_order _⟩
  · simp only [callbackTrace, List.filterMap_append, List.filterMap_cons,
      dispatchEvent_citations, dispatchEvent_done, List.filterMap_nil]
    simp
  · intro x hx
    obtain ⟨e, he, htag⟩ := hmem pre x hx
    constructor
    · cases hcx : isCitationsCall x
      · rfl
      · exact absurd (htag.trans (callTag_of_citations x hcx))
          (hpre e he).1
    · cases hcx : isDoneCall x
      · rfl
      · exact absurd (htag.trans (callTag_of_done x hcx)) (hpre e he).2
  · intro x hx
    obtain ⟨e, he, htag⟩ := hmem mid x hx
    refine ⟨?_, ?_, ?_⟩
    · cases hcx : isDeltaCall x
      · rfl
      · exact absurd (htag.trans (callTag_of_delta x hcx)) (hmid e he).1
    · cases hcx : isCitationsCall x
      · rfl
      · exact absurd (htag.trans (callTag_of_citations x hcx))
          (hmid e he).2.1
    · cases hcx : isDoneCall x
      · rfl
      · exact absurd (htag.trans (callTag_of_done x hcx)) (hmid e he).2.2

/-- Witness for C2: a concrete stream `user_message, content_delta,
citations, title, done`. -/
theorem streamChatMessage_callback_order_witness :
    callbackTrace
        ([("user_message".toList, 1), ("content_delta".toList, 2)] ++
          ("citations".toList, 3) :: [("title".toList, 4)] ++
          [("done".toList, 5)]) =
      callbackTrace [("user_message".toList, 1),
        ("content_delta".toList, 2)] ++ StreamCall.onCitations 3 ::
        (callbackTrace [("title".toList, (4 : Nat))] ++
          [StreamCall.onDone 5]) :=
  (streamChatMessage_callback_order
    [("user_message".toList, 1), ("content_delta".toList, 2)]
    [("title".toList, 4)] 3 5 (by decide) (by decide)).1

/-- C3 (spec-modelled stream): when the producer closes the stream with
exactly one terminal event (`done` or `error`) as its last event — the
§3 `StreamEvent` contract; the producing backend is not part of this
repository — the dispatch loop of `streamChatMessage` invokes exactly
one terminal callback, after which no further callback is invoked. -/
theorem streamChatMessage_single_terminal {δ : Type}
    (pre : List (List Char × δ)) (t : List Char) (d : δ)
    (ht : t = "done".toList ∨ t = "error".toList)
    (hpre : ∀ e ∈ pre, e.1 ≠ "done".toList ∧ e.1 ≠ "error".toList) :
    ∃ A x, callbackTrace (pre ++ [(t, d)]) = A ++ [x]
      ∧ isTerminalCall x = true
      ∧ ∀ y ∈ A, isTerminalCall y = false := by
  have hA : ∀ y ∈ callbackTrace pre, isTerminalCall y = false := by
    intro y hy
    obtain ⟨e, he, hd⟩ := List.mem_filterMap.mp hy
    have htag := dispatchEvent_some_tag e.1 e.2 y hd
    cases hcy : isTerminalCall y
    · rfl
    · rcases callTag_of_terminal y hcy with h0 | h0
      · exact absurd (htag.trans h0) (hpre e he).1
      · exact absurd (htag.trans h0) (hpre e he).2
  rcases ht with rfl | rfl
  · refine ⟨callbackTrace pre, StreamCall.onDone d, ?_, rfl, hA⟩
    simp only [callbackTrace, List.filterMap_append, List.filterMap_cons,
      dispatchEvent_done, List.filterMap_nil]
  · refine ⟨callbackTrace pre, StreamCall.onError d, ?_, rfl, hA⟩
    simp only [callbackTrace, List.filterMap_append, List.filterMap_cons,
      dispatchEvent_error, List.filterMap_nil]

/-- Witness for C3: a stream of one `content_delta` followed by the
terminal `done`. -/
theorem streamChatMessage_single_terminal_witness :
    ∃ A x, callbackTrace
        ([("content_delta".toList, (7 : Nat))] ++ [("done".toList, 9)]) =
          A ++ [x]
      ∧ isTerminalCall x = true
      ∧ ∀ y ∈ A, isTerminalCall y = false :=
  streamChatMessage_single_terminal
    [("content_delta".toList, 7)] "done".toList 9 (Or.inl rfl) (by decide)

/-! ## Chat hook state (`use-chat.ts`) -/

/-- `SSEUserMessageEvent` from `types.ts` (the fields `useChat` reads;
`role` is fixed `"user"` and `citations` fixed `null`). -/
structure SSEUserMessageEvent where
  id : String
  content : String
  created_at : String
deriving DecidableEq, Repr

/-- `SSEContentDeltaEvent` from `types.ts`. -/
structure SSEContentDeltaEvent where
  token : String
deriving DecidableEq, Repr

/-- `SSECitationsEvent` from `types.ts`. -/
structure SSECitationsEvent where
  citations : List Citation
deriving DecidableEq, Repr

/-- `SSETitleEvent` from `types.ts`. -/
structure SSETitleEvent where
  title : String
deriving DecidableEq, Repr

/-- `SSEDoneEvent` from `types.ts`. -/
structure SSEDoneEvent where
  message_id : String
  created_at : String
deriving DecidableEq, Repr

/-- `SSEErrorEvent` from `types.ts`. -/
structure SSEErrorEvent where
  detail : String
deriving DecidableEq, Repr

/-- `ChatMessage` interface from `types.ts`. -/
structure ChatMessageM where
  id : String
  role : String
  content : String
  citations : Option (List Citation)
  created_at : String
deriving DecidableEq, Repr

/-- `ChatSessionDetail` (the fields `useChat` updates). -/
structure ChatSessionDetailM where
  title : Option String
  messages : List ChatMessageM
deriving DecidableEq, Repr

/-- The `useChat` hook state touched by a send: the loaded session, the
`sending` flag, the last error, and the RAF token buffer
(`tokenBufferRef`). -/
structure ChatState where
  session : Option ChatSessionDetailM
  sending : Bool
  error : Option String
  buffer : String
deriving DecidableEq, Repr

/-- `STREAMING_MSG_ID` from `constants.ts`. -/
def STREAMING_MSG_ID : String := "__streaming__"

/-- The update pattern shared by `flushTokenBuffer`, `onCitations` and
`onDone`: if the trailing message is the streaming placeholder, replace
it by `f` of it; otherwise leave the session unchanged. -/
def updLastStreaming (f : ChatMessageM → ChatMessageM)
    (s : ChatSessionDetailM) : ChatSessionDetailM :=
  match s.messages.getLast? with
  | some last =>
    if last.id = STREAMING_MSG_ID then
      { s with messages := s.messages.dropLast ++ [f last] }
    else s
  | none => s

/-- `flushTokenBuffer` (lines 37-56): move the buffered tokens into the
trailing streaming message. When the trailing message is not the
streaming placeholder the buffer is still cleared and its content lost;
when the buffer is empty nothing changes. -/
def flushTokenBuffer (st : ChatState) : ChatState :=
  if st.buffer = "" then st
  else
    { st with
      buffer := "",
      session := st.session.map (updLastStreaming fun last =>
        { last with content := last.content ++ st.buffer }) }

/-- `onUserMessage` (lines 118-144): replace the optimistic temp user
message with the server's user message and append the empty streaming
placeholder (whose `created_at` is the current time `now`). -/
def onUserMessageUpd (tempId now : String) (d : SSEUserMessageEvent)
    (st : ChatState) : ChatState :=
  { st with
    session := st.session.map fun s =>
      { s with messages :=
          (s.messages.filter fun m => !(m.id == tempId)) ++
            [{ id := d.id, role := "user", content := d.content,
               citations := none, created_at := d.created_at },
             { id := STREAMING_MSG_ID, role := "assistant", content := "",
               citations := none, created_at := now }] } }

/-- `onContentDelta` (lines 146-151): append the token to the RAF buffer
(the flush itself runs on the next animation frame). -/
def onContentDeltaUpd (d : SSEContentDeltaEvent) (st : ChatState) :
    ChatState :=
  { st with buffer := st.buffer ++ d.token }

/-- `onCitations` (lines 153-179): flush the pending buffer into the
streaming message and attach the citation list. -/
def onCitationsUpd (d : SSECitationsEvent) (st : ChatState) : ChatState :=
  { st with
    buffer := "",
    session := st.session.map (updLastStreaming fun last =>
      { last with content := last.content ++ st.buffer,
                  citations := some d.citations }) }

/-- `onTitle` (lines 181-185). -/
def onTitleUpd (d : SSETitleEvent) (st : ChatState) : ChatState :=
  { st with
    session := st.session.map fun s => { s with title := some d.title } }

/-- `onDone` (lines 187-215): flush the buffer and give the streaming
message its real id and timestamp. -/
def onDoneUpd (d : SSEDoneEvent) (st : ChatState) : ChatState :=
  { st with
    buffer := "",
    session := st.session.map (updLastStreaming fun last =>
      { last with id := d.message_id,
                  content := last.content ++ st.buffer,
                  created_at := d.created_at }) }

/-- `onError` (lines 217-219): record the error detail; the session
messages and the token buffer are left untouched. -/
def onErrorUpd (d : SSEErrorEvent) (st : ChatState) : ChatState :=
  { st with error := some d.detail }

/-- The `catch` branch of the stream promise (lines 222-236): record the
error and remove both the optimistic user message and the streaming
placeholder from the session. -/
def catchUpd (errMsg tempId : String) (st : ChatState) : ChatState :=
  { st with
    error := some errMsg,
    session := st.session.map fun s =>
      { s with messages := s.messages.filter fun m =>
          !(m.id == tempId) && !(m.id == STREAMING_MSG_ID) } }

/-- The `finally` branch (lines 237-240): clear the sending flag. -/
def finallyUpd (st : ChatState) : ChatState :=
  { st with sending := false }

/-- JS `String.prototype.trim()` on a Lean string. -/
def strTrim (s : String) : String := ⟨jsTrim s.data⟩

/-- The side effects `sendMessage` can issue. -/
inductive ChatEffect where
  | streamRequest (message madhab category : String)
deriving DecidableEq, Repr

/-- The synchronous entry of `sendMessage` (lines 91-110): return
immediately on blank text or an in-flight send; otherwise set the
sending flag, clear the error, append the optimistic user message
(`tempId`, timestamp `now`) and issue the streaming request. -/
def sendMessage (text madhab category tempId now : String)
    (st : ChatState) : ChatState × List ChatEffect :=
  if strTrim text = "" ∨ st.sending then (st, [])
  else
    ({ st with
        sending := true,
        error := none,
        session := st.session.map fun s =>
          { s with messages := s.messages ++
              [{ id := tempId, role := "user", content := text,
                 citations := none, created_at := now }] } },
      [ChatEffect.streamRequest text madhab category])

theorem strTrim_of_whitespace (s : String)
    (h : ∀ c ∈ s.data, c.isWhitespace = true) : strTrim s = "" := by
  have hdrop : s.data.dropWhile Char.isWhitespace = [] :=
    List.dropWhile_eq_nil_iff.mpr h
  show (⟨jsTrim s.data⟩ : String) = ""
  rw [jsTrim, hdrop]
  rfl

/-- C10: `sendMessage` is a guarded no-op: on whitespace-only text or
with a previous send still in flight, it returns at once, issues no
network request, and leaves the entire chat state (session messages,
title, error, sending flag) unchanged. -/
theorem sendMessage_guard_noop (text madhab category tempId now : String)
    (st : ChatState)
    (h : (∀ c ∈ text.data, c.isWhitespace = true) ∨ st.sending = true) :
    sendMessage text madhab category tempId now st = (st, []) := by
  rcases h with h | h
  · rw [sendMessage, if_pos (Or.inl (strTrim_of_whitespace text h))]
  · rw [sendMessage, if_pos (Or.inr (by rw [h]))]

def sampleSession : ChatSessionDetailM :=
  { title := none,
    messages := [{ id := "m0", role := "assistant", content := "Salam",
                   citations := none, created_at := "T0" }] }

def sampleChatState : ChatState :=
  { session := some sampleSession, sending := false, error := none,
    buffer := "" }

/-- Witness for C10: whitespace-only text on a quiescent state, and
non-blank text while a send is in flight. -/
theorem sendMessage_guard_noop_witness :
    sendMessage "  \n " "all" "all" "t1" "T1" sampleChatState =
      (sampleChatState, [])
    ∧ sendMessage "Salam" "all" "all" "t1" "T1"
        { sampleChatState with sending := true } =
      ({ sampleChatState with sending := true }, []) :=
  ⟨sendMessage_guard_noop "  \n " "all" "all" "t1" "T1" sampleChatState
      (Or.inl (by decide)),
    sendMessage_guard_noop "Salam" "all" "all" "t1" "T1"
      { sampleChatState with sending := true } (Or.inr rfl)⟩

/-- Fold of `onContentDelta` over a token sequence. -/
def runDeltas (toks : List String) (st : ChatState) : ChatState :=
  toks.foldl (fun s t => onContentDeltaUpd { token := t } s) st

/-- Concatenation of a token sequence. -/
def strConcat : List String → String
  | [] => ""
  | s :: rest => s ++ strConcat rest

theorem runDeltas_spec (toks : List String) (st : ChatState) :
    runDeltas toks st = { st with buffer := st.buffer ++ strConcat toks } := by
  induction toks generalizing st with
  | nil =>
    show st = _
    rw [strConcat]
    cases st
    simp
  | cons t ts ih =>
    show runDeltas ts (onContentDeltaUpd { token := t } st) = _
    rw [ih, onContentDeltaUpd, strConcat]
    simp [String.append_assoc]

/-- The state of the chat failure scenario just after the partial token
`"Hello"` has been delivered and flushed: an empty session received the
optimistic send, the server user message, and one content delta. -/
def cexAfterDelta : ChatState :=
  flushTokenBuffer (onContentDeltaUpd { token := "Hello" }
    (onUserMessageUpd "t1" "T2"
      { id := "u1", content := "Hi", created_at := "T1" }
      (sendMessage "Hi" "all" "all" "t1" "T0"
        { session := some { title := none, messages := [] },
          sending := false, error := none, buffer := "" }).1))

/-- The same scenario after the transport throws (the `catch` branch of
`sendMessage` runs). -/
def cexAfterThrow : ChatState :=
  catchUpd "Network error" "t1" cexAfterDelta

/-- C4 counterexample: a failure thrown by the transport after a
`content_delta` was delivered does NOT retain the partial text. Before
the failure the session holds the partial assistant message
(`"Hello"`); the `catch` branch removes it together with the optimistic
user message replacement filter, leaving only the confirmed user
message — the partial output is retracted, contradicting the claim for
this class of failure. -/
theorem useChat_thrown_failure_discards_partial_text :
    cexAfterDelta.session =
      some { title := none,
             messages := [{ id := "u1", role := "user", content := "Hi",
                            citations := none, created_at := "T1" },
                          { id := "__streaming__", role := "assistant",
                            content := "Hello", citations := none,
                            created_at := "T2" }] }
    ∧ cexAfterThrow.session =
        some { title := none,
               messages := [{ id := "u1", role := "user", content := "Hi",
                              citations := none, created_at := "T1" }] }
    ∧ cexAfterThrow.error = some "Network error" := by
  refine ⟨?_, ?_, ?_⟩ <;> decide

/-- C4 amended: a failure delivered as an SSE `error` event — the form in
which a model-call `GenerationError` reaches this client — preserves the
partial text: `onError` only records the error detail, and the buffered
tokens are still flushed into the trailing streaming message, so the
assistant message retains every token received before the failure. -/
theorem useChat_error_event_preserves_partial_text
    (title : Option String) (pre : List ChatMessageM) (cur : ChatMessageM)
    (st : ChatState) (toks : List String) (d : SSEErrorEvent)
    (hsess : st.session = some { title := title, messages := pre ++ [cur] })
    (hcur : cur.id = STREAMING_MSG_ID) :
    (flushTokenBuffer (onErrorUpd d (runDeltas toks st))).error =
        some d.detail
    ∧ (flushTokenBuffer (onErrorUpd d (runDeltas toks st))).session =
        some { title := title,
               messages := pre ++
                 [{ cur with content :=
                      cur.content ++ (st.buffer ++ strConcat toks) }] } := by
  rw [runDeltas_spec]
  have herr : ∀ x : ChatState,
      onErrorUpd d x = { x with error := some d.detail } := fun _ => rfl
  rw [herr]
  by_cases hb : st.buffer ++ strConcat toks = ""
  · rw [flushTokenBuffer, if_pos hb]
    refine ⟨rfl, ?_⟩
    show st.session = _
    rw [hsess, hb]
    have : ({ cur with content := cur.content ++ "" } : ChatMessageM) =
        cur := by
      cases cur
      simp
    rw [this]
  · rw [flushTokenBuffer, if_neg hb]
    refine ⟨rfl, ?_⟩
    show (Option.map _ st.session) = _
    rw [hsess]
    show some _ = some _
    rw [updLastStreaming]
    rw [List.getLast?_concat]
    show some (if cur.id = STREAMING_MSG_ID then _ else _) = _
    rw [if_pos hcur, List.dropLast_concat]

/-- The chat state feeding the C4 amended-theorem witness: a streaming
assistant message holding `"Hel"` with `"x"` still buffered. -/
def errEventStart : ChatState :=
  ⟨some ⟨none, [⟨"__streaming__", "assistant", "Hel", none, "T2"⟩]⟩,
    true, none, "x"⟩

/-- Witness for C4's amended theorem: one buffered token plus one
streamed token, then a model-failure `error` event. -/
theorem useChat_error_event_preserves_partial_text_witness :
    (flushTokenBuffer (onErrorUpd ⟨"model failed"⟩
        (runDeltas ["lo"] errEventStart))).error = some "model failed"
    ∧ (flushTokenBuffer (onErrorUpd ⟨"model failed"⟩
        (runDeltas ["lo"] errEventStart))).session =
      some ⟨none,
        [⟨"__streaming__", "assistant",
          "Hel" ++ ("x" ++ strConcat ["lo"]), none, "T2"⟩]⟩ :=
  useChat_error_event_preserves_partial_text none []
    ⟨"__streaming__", "assistant", "Hel", none, "T2"⟩
    errEventStart ["lo"] ⟨"model failed"⟩ rfl rfl

/-! ## The module-level `pendingStreams` map (`use-chat.ts` lines 9-15) -/

/-- The module-level `pendingStreams` `Map` of in-flight streams keyed by
session id, shared by every `useChat` hook instance. The entry type
(`PendingStream`: the stream promise and the optimistic message) is kept
abstract. Modelled as an association list where `set` shadows older
entries, observationally equal to the JS `Map` under `get`/`has`. -/
def PendingMap (ε : Type) : Type := List (String × ε)

def pendingEmpty {ε : Type} : PendingMap ε := []

/-- `pendingStreams.set(sessionId, entry)`. -/
def pendingSet {ε : Type} (m : PendingMap ε) (k : String) (v : ε) :
    PendingMap ε := (k, v) :: m

/-- `pendingStreams.delete(sessionId)`. -/
def pendingDelete {ε : Type} (m : PendingMap ε) (k : String) :
    PendingMap ε := m.filter fun p => !(p.1 == k)

/-- `pendingStreams.get(sessionId)`. -/
def pendingGet {ε : Type} (m : PendingMap ε) (k : String) : Option ε :=
  (m.find? fun p => p.1 == k).map Prod.snd

/-- `pendingStreams.has(sessionId)`. -/
def pendingHas {ε : Type} (m : PendingMap ε) (k : String) : Bool :=
  (pendingGet m k).isSome

/-- Line 19: `useState(() => pendingStreams.has(sessionId))` — a freshly
mounted `useChat` instance initialises its `sending` flag from the shared
module-level map. -/
def initialSending {ε : Type} (pending : PendingMap ε)
    (sessionId : String) : Bool :=
  pendingHas pending sessionId

/-- C5 counterexample: in-flight operations ARE correlated to a session
through module-level shared mutable state. After one hook instance
starts a stream for session `"s1"` (`pendingStreams.set`, line 243), a
second, independent hook instance for the same session already observes
it: its initial `sending` state is `true`, against `false` on the empty
map. The in-flight state is thus not owned exclusively by one
request/hook context, refuting the claim as stated. -/
theorem pendingStreams_module_state :
    initialSending (pendingSet (pendingEmpty (ε := Nat)) "s1" 0) "s1" = true
    ∧ initialSending (pendingEmpty (ε := Nat)) "s1" = false := by
  exact ⟨rfl, rfl⟩

/-- The map operations `useChat` performs on `pendingStreams`
(`set` at line 243, `delete` at line 238), tagged by their session key. -/
inductive PendingOp (ε : Type) where
  | set (k : String) (v : ε)
  | del (k : String)
deriving DecidableEq, Repr

def opKey {ε : Type} : PendingOp ε → String
  | PendingOp.set k _ => k
  | PendingOp.del k => k

def applyOp {ε : Type} (m : PendingMap ε) : PendingOp ε → PendingMap ε
  | PendingOp.set k v => pendingSet m k v
  | PendingOp.del k => pendingDelete m k

def runOps {ε : Type} (m : PendingMap ε) (ops : List (PendingOp ε)) :
    PendingMap ε :=
  ops.foldl applyOp m

theorem pendingGet_applyOp_other {ε : Type} (m : PendingMap ε)
    (op : PendingOp ε) (a : String) (h : opKey op ≠ a) :
    pendingGet (applyOp m op) a = pendingGet m a := by
  cases op with
  | set k v =>
    simp only [opKey] at h
    rw [applyOp, pendingSet, pendingGet, List.find?_cons]
    rw [show ((k, v).1 == a) = false from by simpa using h]
    rfl
  | del k =>
    simp only [opKey] at h
    rw [applyOp, pendingDelete, pendingGet, pendingGet]
    congr 1
    induction m with
    | nil => rfl
    | cons p rest ih =>
      by_cases hp : p.1 = a
      · have hk : (p.1 == k) = false := by
          simp only [hp, beq_eq_false_iff_ne]
          exact fun hh => h hh.symm
        rw [List.filter_cons]
        simp only [hk, Bool.not_false, if_pos]
        rw [List.find?_cons, List.find?_cons]
        simp only [show (p.1 == a) = true from by simpa using hp]
      · rw [List.filter_cons]
        by_cases hk : (p.1 == k) = true
        · simp only [hk, Bool.not_true, if_neg]
          rw [List.find?_cons]
          simp only [show (p.1 == a) = false from by simpa using hp]
          exact ih
        · simp only [show (!(p.1 == k)) = true from by simp_all, if_pos]
          rw [List.find?_cons, List.find?_cons]
          simp only [show (p.1 == a) = false from by simpa using hp]
          exact ih

theorem pendingGet_applyOp_same {ε : Type} (m1 m2 : PendingMap ε)
    (op : PendingOp ε) (a : String) (h : opKey op = a) :
    pendingGet (applyOp m1 op) a = pendingGet (applyOp m2 op) a := by
  cases op with
  | set k v =>
    simp only [opKey] at h
    subst h
    rw [applyOp, applyOp, pendingSet, pendingSet, pendingGet, pendingGet,
      List.find?_cons, List.find?_cons]
    simp
  | del k =>
    simp only [opKey] at h
    subst h
    have hnone : ∀ m : PendingMap ε,
        pendingGet (pendingDelete m k) k = none := by
      intro m
      rw [pendingGet, Option.map_eq_none']
      rw [List.find?_eq_none]
      intro p hp
      have := List.of_mem_filter hp
      simpa using this
    rw [applyOp, applyOp, hnone, hnone]

/-- C5 amended: although in-flight state lives in the shared module-level
`pendingStreams` map, distinct sessions do not interfere through it: the
map is keyed by session id, so for any interleaved operation sequence,
one session's view (`get` on its own key) equals the view after running
only its own operations — the per-session observable result is as if its
stream ran alone. -/
theorem pendingStreams_noninterference {ε : Type}
    (ops : List (PendingOp ε)) (a : String) (m1 m2 : PendingMap ε)
    (hm : pendingGet m1 a = pendingGet m2 a) :
    pendingGet (runOps m1 ops) a =
      pendingGet (runOps m2 (ops.filter fun op => opKey op == a)) a := by
  induction ops generalizing m1 m2 with
  | nil => exact hm
  | cons op rest ih =>
    rw [runOps, List.foldl_cons]
    by_cases hk : opKey op = a
    · rw [List.filter_cons]
      simp only [show (opKey op == a) = true from by simpa using hk,
        if_pos]
      rw [runOps, List.foldl_cons]
      exact ih _ _ (pendingGet_applyOp_same m1 m2 op a hk)
    · rw [List.filter_cons]
      simp only [show (opKey op == a) = false from by simpa using hk,
        Bool.false_eq_true, if_neg, not_false_iff]
      exact ih _ _ ((pendingGet_applyOp_other m1 op a hk).trans hm)

/-- Witness for C5's amended theorem: session `"s1"` observes the same
entry whether session `"s2"`'s interleaved operations run or not. -/
theorem pendingStreams_noninterference_witness :
    pendingGet
        (runOps (pendingEmpty (ε := Nat))
          [PendingOp.set "s2" 7, PendingOp.set "s1" 1,
            PendingOp.del "s2", PendingOp.set "s2" 8]) "s1" =
      pendingGet
        (runOps (pendingEmpty (ε := Nat))
          ([PendingOp.set "s2" 7, PendingOp.set "s1" 1,
            PendingOp.del "s2", PendingOp.set "s2" 8].filter
              fun op => opKey op == "s1")) "s1" :=
  pendingStreams_noninterference _ "s1" pendingEmpty pendingEmpty rfl

/-! ## Result Fuser ranking (spec §4.5; the backend pipeline is not part
of this repository's sources, so the ranking rule is modelled from the
specification text) -/

/-- Modelled from the spec: the retrieval mode that produced a candidate
(§4.4); the backend Result Fuser is missing from `src/`. -/
inductive RetrievalMode where
  | metadata
  | keyword
  | vector
deriving DecidableEq, Repr

/-- Modelled from the spec: the tie-break precedence
`metadata > keyword > vector` (§4.5 step 3), lower rank first. -/
def modePriority : RetrievalMode → Nat
  | RetrievalMode.metadata => 0
  | RetrievalMode.keyword => 1
  | RetrievalMode.vector => 2

/-- Modelled from the spec: a `RetrievedCandidate` — (Passage, relevance
score, retrieval mode); the passage is represented by its stable
identifier and the score as an integer ordering key. -/
structure RetrievedCandidate where
  passageId : Nat
  score : Int
  mode : RetrievalMode
deriving DecidableEq, Repr

/-- Modelled from the spec: the fixed tie-break rule of §4.5 step 3 —
mode priority (metadata > keyword > vector), then higher raw score, then
stable passage identifier order. -/
def rankBefore (x y : RetrievedCandidate) : Prop :=
  modePriority x.mode < modePriority y.mode
  ∨ (modePriority x.mode = modePriority y.mode ∧
      (y.score < x.score
        ∨ (x.score = y.score ∧ x.passageId ≤ y.passageId)))

instance : DecidableRel rankBefore := fun x y => by
  unfold rankBefore
  infer_instance

/-- Modelled from the spec: the Fuser's ranking step — sort the fused
candidate set by the fixed tie-break rule. -/
def fuseRank (l : List RetrievedCandidate) : List RetrievedCandidate :=
  List.insertionSort rankBefore l

instance : IsTotal RetrievedCandidate rankBefore :=
  ⟨by
    intro x y
    unfold rankBefore
    omega⟩

instance : IsTrans RetrievedCandidate rankBefore :=
  ⟨by
    intro x y z hxy hyz
    unfold rankBefore at hxy hyz ⊢
    omega⟩

instance : IsAntisymm RetrievedCandidate rankBefore :=
  ⟨by
    intro x y hxy hyx
    obtain ⟨px, sx, mx⟩ := x
    obtain ⟨py, sy, my⟩ := y
    unfold rankBefore at hxy hyx
    simp only at hxy hyx
    have hm : modePriority mx = modePriority my := by omega
    have hs : sx = sy := by omega
    have hp : px = py := by omega
    have hmode : mx = my := by
      cases mx <;> cases my <;> simp_all [modePriority]
    rw [hs, hp, hmode]⟩

/-- C7 (spec-modelled): the Result Fuser's ranking with the fixed
tie-break rule is a deterministic function of its input: `fuseRank`
returns a permutation of the candidate set sorted by the tie-break
order, and ANY sorted permutation of the same fused candidate set is
equal to it — so re-running the Fuser (or any correct implementation of
the same rule) yields the identical output ordering on every run. -/
theorem fuseRank_deterministic (l : List RetrievedCandidate) :
    List.Perm (fuseRank l) l
    ∧ List.Sorted rankBefore (fuseRank l)
    ∧ ∀ l2 : List RetrievedCandidate,
        List.Perm l2 l → List.Sorted rankBefore l2 → l2 = fuseRank l := by
  refine ⟨List.perm_insertionSort rankBefore l,
    List.sorted_insertionSort rankBefore l, ?_⟩
  intro l2 hp hs
  exact List.eq_of_perm_of_sorted
    (hp.trans (List.perm_insertionSort rankBefore l).symm) hs
    (List.sorted_insertionSort rankBefore l)

/-- Witness for C7: a candidate set with a score tie between two keyword
hits; the uniquely determined ranking puts metadata first and breaks the
tie by passage identifier. -/
theorem fuseRank_deterministic_witness :
    ([⟨4, 3, RetrievalMode.metadata⟩, ⟨2, 9, RetrievalMode.keyword⟩,
        ⟨3, 9, RetrievalMode.keyword⟩, ⟨1, 5, RetrievalMode.vector⟩] :
      List RetrievedCandidate) =
      fuseRank [⟨1, 5, RetrievalMode.vector⟩, ⟨3, 9, RetrievalMode.keyword⟩,
        ⟨2, 9, RetrievalMode.keyword⟩, ⟨4, 3, RetrievalMode.metadata⟩] :=
  (fuseRank_deterministic _).2.2 _ (by decide) (by decide)

end IlmAtlas
